import Mathlib

/-!
# Verification of the `TopicCache` discovery index

A shallow embedding of `rmw_fastrtps_shared_cpp/topic_cache.hpp`:
a pair of synchronized maps (`topic_to_types_`, `participant_to_topics_`)
with `addTopic`, `removeTopic`, `countParticipants`,
`cloneParticipantTopics` and `cloneTopicToTypes`.

The C++ maps (`std::unordered_map`, `std::map`) are modelled as
association lists with unique keys; `std::vector<std::string>` is a
`List String`.  `GUID_t` is an opaque identifier modelled by `Nat`
(it is only used for equality/ordering as a map key).

`removeTopic` calls `vec.erase(std::find(vec.begin(), vec.end(), ty))`
without checking `find`'s result: when `ty` is not in `vec` this is
`erase(end())`, undefined behaviour.  The embedding makes that path
explicit by returning `Option`: `none` marks the undefined erase.
-/

/-- Association-list lookup; models `map.find(k)` returning the mapped
value when the key is present. -/
def lookupKey {α β : Type} [DecidableEq α] (m : List (α × β)) (k : α) : Option β :=
  match m with
  | [] => none
  | e :: rest => if e.1 = k then some e.2 else lookupKey rest k

/-- Association-list update; models `map[k] = v` (in-place update when the
key exists, insertion otherwise). -/
def setKey {α β : Type} [DecidableEq α] (m : List (α × β)) (k : α) (v : β) :
    List (α × β) :=
  match m with
  | [] => [(k, v)]
  | e :: rest => if e.1 = k then (k, v) :: rest else e :: setKey rest k v

/-- Association-list key removal; models `map.erase(k)`. -/
def eraseKey {α β : Type} [DecidableEq α] (m : List (α × β)) (k : α) :
    List (α × β) :=
  match m with
  | [] => []
  | e :: rest => if e.1 = k then rest else e :: eraseKey rest k

/-- The keys of an association list. -/
def keysOf {α β : Type} (m : List (α × β)) : List α := m.map Prod.fst

/-- `std::vector<std::string>`: the list of type names on one topic. -/
abbrev TypeList := List String

/-- `std::unordered_map<std::string, std::vector<std::string>>`. -/
abbrev NameToNamesMap := List (String × TypeList)

/-- The global topic-to-types map type (alias, as in the source). -/
abbrev TopicToTypes := NameToNamesMap

/-- `GUID_t`: opaque participant identifier, used only as a map key. -/
abbrev GUID := Nat

/-- `std::map<GUID_t, NameToNamesMap>`. -/
abbrev ParticipantTopicMap := List (GUID × TopicToTypes)

/-- The `TopicCache` state: the two maps guarded by `mutex_`. -/
structure TopicCache where
  topic_to_types_ : TopicToTypes
  participant_to_topics_ : ParticipantTopicMap
deriving DecidableEq, Repr

/-- The initial, empty cache. -/
def emptyCache : TopicCache := ⟨[], []⟩

/-- `TopicCache::initializeTopic`: insert an empty `TypeList` for
`topic_name` when the key is absent. -/
def initializeTopic (topic_name : String) (topic_to_types : TopicToTypes) :
    TopicToTypes :=
  match lookupKey topic_to_types topic_name with
  | none => setKey topic_to_types topic_name []
  | some _ => topic_to_types

/-- `TopicCache::initializeParticipantMap`: insert an empty `TopicToTypes`
for `guid` when the key is absent. -/
def initializeParticipantMap (map : ParticipantTopicMap) (guid : GUID) :
    ParticipantTopicMap :=
  match lookupKey map guid with
  | none => setKey map guid []
  | some _ => map

/-- `TopicCache::addTopic`: append `type_name` to the global `TypeList`
for `topic_name` and to the participant's local one, creating missing
keys, then return `true`. -/
def addTopic (c : TopicCache) (guid : GUID) (topic_name type_name : String) :
    TopicCache × Bool :=
  let g0 := initializeTopic topic_name c.topic_to_types_
  let p0 := initializeParticipantMap c.participant_to_topics_ guid
  let p1 := setKey p0 guid (initializeTopic topic_name ((lookupKey p0 guid).getD []))
  let g1 := setKey g0 topic_name (((lookupKey g0 topic_name).getD []) ++ [type_name])
  let inner := (lookupKey p1 guid).getD []
  let p2 := setKey p1 guid
    (setKey inner topic_name (((lookupKey inner topic_name).getD []) ++ [type_name]))
  (⟨g1, p2⟩, true)

/-- `vec.erase(std::find(vec.begin(), vec.end(), type_name))`: when
`type_name` occurs, erase the first occurrence; otherwise the call is
`erase(end())`, undefined behaviour, marked `none`. -/
def findErase (vec : TypeList) (type_name : String) : Option TypeList :=
  if type_name ∈ vec then some (vec.erase type_name) else none

/-- `TopicCache::removeTopic`.  Returns `none` when the execution reaches
one of the unguarded `erase(std::find(...))` calls with the type name
absent (undefined behaviour in the C++); otherwise `some` of the new
state and the returned `bool`. -/
def removeTopic (c : TopicCache) (guid : GUID) (topic_name type_name : String) :
    Option (TopicCache × Bool) :=
  match lookupKey c.topic_to_types_ topic_name with
  | none => some (c, false)
  | some vec =>
    match findErase vec type_name with
    | none => none
    | some vec2 =>
      let g1 := if vec2 = [] then eraseKey c.topic_to_types_ topic_name
                else setKey c.topic_to_types_ topic_name vec2
      match lookupKey c.participant_to_topics_ guid with
      | none => some (⟨g1, c.participant_to_topics_⟩, true)
      | some inner =>
        match lookupKey inner topic_name with
        | none => some (⟨g1, c.participant_to_topics_⟩, true)
        | some lvec =>
          match findErase lvec type_name with
          | none => none
          | some lvec2 =>
            let inner1 := if lvec2 = [] then eraseKey inner topic_name
                          else setKey inner topic_name lvec2
            let p1 := if inner1 = [] then eraseKey c.participant_to_topics_ guid
                      else setKey c.participant_to_topics_ guid inner1
            some (⟨g1, p1⟩, true)

/-- The loop of `TopicCache::countParticipants`, threading the cache
state to record that the map is only read via `find`. -/
def countLoop (c : TopicCache) (fqdns : List String) (count : Nat) :
    TopicCache × Nat :=
  match fqdns with
  | [] => (c, count)
  | topic_fqdn :: rest =>
    match lookupKey c.topic_to_types_ topic_fqdn with
    | none => countLoop c rest count
    | some vec => countLoop c rest (count + vec.length)

/-- `TopicCache::countParticipants`: sum the lengths of the global
`TypeList`s of the names found. -/
def countParticipants (c : TopicCache) (fqdns : List String) : TopicCache × Nat :=
  countLoop c fqdns 0

/-- `TopicCache::cloneParticipantTopics`: copy one participant's map into
the output parameter when the participant is found. -/
def cloneParticipantTopics (c : TopicCache) (participant_guid : GUID)
    (topics : NameToNamesMap) : Bool × NameToNamesMap :=
  match lookupKey c.participant_to_topics_ participant_guid with
  | none => (false, topics)
  | some inner => (true, inner)

/-- `TopicCache::cloneTopicToTypes`: return a copy of the global map. -/
def cloneTopicToTypes (c : TopicCache) : NameToNamesMap := c.topic_to_types_

/-- States reachable from the empty cache by any sequence of `addTopic`
and (defined) `removeTopic` calls, with arbitrary arguments. -/
inductive Reachable : TopicCache → Prop
  | empty : Reachable emptyCache
  | add (c : TopicCache) (p : GUID) (t ty : String) :
      Reachable c → Reachable (addTopic c p t ty).1
  | remove (c c2 : TopicCache) (p : GUID) (t ty : String) (b : Bool) :
      Reachable c → removeTopic c p t ty = some (c2, b) → Reachable c2

/-- The participant `p`'s local `TypeList` for topic `t` (empty when the
participant or the topic key is absent). -/
def localTypes (c : TopicCache) (p : GUID) (t : String) : TypeList :=
  (lookupKey ((lookupKey c.participant_to_topics_ p).getD []) t).getD []

/-- The global `TypeList` for topic `t` (empty when the key is absent). -/
def globalTypes (c : TopicCache) (t : String) : TypeList :=
  (lookupKey c.topic_to_types_ t).getD []

/-- Concatenate the local `TypeList`s for topic `t` over the entries of a
participant map. -/
def sumLocalAux (m : ParticipantTopicMap) (t : String) : TypeList :=
  match m with
  | [] => []
  | e :: rest => ((lookupKey e.2 t).getD []) ++ sumLocalAux rest t

/-- The concatenation, over all participants, of their local `TypeList`s
for topic `t`: the per-participant views of `t` summed as a multiset. -/
def sumLocalTypes (c : TopicCache) (t : String) : TypeList :=
  sumLocalAux c.participant_to_topics_ t

/-- States reachable from the empty cache when every `removeTopic` call is
matched: it removes a (participant, topic, type) currently present in that
participant's own local view. -/
inductive MatchedReachable : TopicCache → Prop
  | empty : MatchedReachable emptyCache
  | add (c : TopicCache) (p : GUID) (t ty : String) :
      MatchedReachable c → MatchedReachable (addTopic c p t ty).1
  | remove (c c2 : TopicCache) (p : GUID) (t ty : String) (b : Bool) :
      MatchedReachable c → ty ∈ localTypes c p t →
      removeTopic c p t ty = some (c2, b) → MatchedReachable c2

/-- The combined effect of `initializeTopic` followed by
`push_back(type_name)` on one `NameToNamesMap`: append `ty` to the
`TypeList` of `t`, creating the key at the end of the list if absent. -/
def appendType (m : NameToNamesMap) (t ty : String) : NameToNamesMap :=
  match lookupKey m t with
  | none => m ++ [(t, [ty])]
  | some vec => setKey m t (vec ++ [ty])

/-- Structural well-formedness of the model: association-list keys are
unique at every level (as they are for the C++ `std::map` and
`std::unordered_map`). -/
def WFKeys (c : TopicCache) : Prop :=
  (keysOf c.topic_to_types_).Nodup ∧ (keysOf c.participant_to_topics_).Nodup ∧
  ∀ e ∈ c.participant_to_topics_, (keysOf e.2).Nodup

/-- No empty collections anywhere: every global topic key maps to a
non-empty `TypeList`, every participant key maps to a non-empty
`TopicToTypes`, and every topic key inside a participant's map maps to a
non-empty `TypeList`. -/
def NoEmptyVals (c : TopicCache) : Prop :=
  (∀ e ∈ c.topic_to_types_, e.2 ≠ []) ∧
  (∀ e ∈ c.participant_to_topics_, e.2 ≠ [] ∧ ∀ f ∈ e.2, f.2 ≠ [])

instance (c : TopicCache) : Decidable (NoEmptyVals c) := by
  unfold NoEmptyVals
  infer_instance

/-- Cross-map consistency, stated with multiplicities: for every topic
and every type name, the per-participant views summed over all
participants hold exactly as many copies as the global view. -/
def I3Count (c : TopicCache) : Prop :=
  ∀ t a, (sumLocalTypes c t).count a = (globalTypes c t).count a

/-- Modelled from the spec's words for `countParticipants`: the sum, over
all candidate names found in the global map, of the lengths of their
`TypeList`s; absent names contribute zero. -/
def specCandidateSum (c : TopicCache) (fqdns : List String) : Nat :=
  (fqdns.map (fun t => (globalTypes c t).length)).sum

section AssocLemmas

variable {α β : Type} [DecidableEq α]

theorem lookupKey_eq_none_iff (m : List (α × β)) (k : α) :
    lookupKey m k = none ↔ k ∉ keysOf m := by
  induction m with
  | nil => simp [lookupKey, keysOf]
  | cons e rest ih =>
    by_cases h : e.1 = k
    · simp [lookupKey, keysOf, h]
    · simp only [lookupKey, if_neg h, ih, keysOf, List.map_cons, List.mem_cons]
      constructor
      · intro hk hc
        rcases hc with hc | hc
        · exact h hc.symm
        · exact hk hc
      · intro hk hc
        exact hk (Or.inr hc)

theorem lookupKey_mem {m : List (α × β)} {k : α} {v : β}
    (h : lookupKey m k = some v) : (k, v) ∈ m := by
  induction m with
  | nil => simp [lookupKey] at h
  | cons e rest ih =>
    by_cases he : e.1 = k
    · simp only [lookupKey, if_pos he] at h
      injection h with h2
      exact List.mem_cons.mpr (Or.inl (by rw [← he, ← h2]))
    · simp only [lookupKey, if_neg he] at h
      exact List.mem_cons_of_mem _ (ih h)

theorem lookupKey_setKey_self (m : List (α × β)) (k : α) (v : β) :
    lookupKey (setKey m k v) k = some v := by
  induction m with
  | nil => simp [setKey, lookupKey]
  | cons e rest ih =>
    by_cases h : e.1 = k
    · simp [setKey, lookupKey, h]
    · simp only [setKey, if_neg h, lookupKey, if_neg h]
      exact ih

theorem lookupKey_setKey_ne {m : List (α × β)} {k k2 : α} (v : β) (h : k2 ≠ k) :
    lookupKey (setKey m k v) k2 = lookupKey m k2 := by
  induction m with
  | nil => simp [setKey, lookupKey, Ne.symm h]
  | cons e rest ih =>
    by_cases he : e.1 = k
    · simp [setKey, lookupKey, he, Ne.symm h]
    · simp only [setKey, if_neg he, lookupKey]
      by_cases he2 : e.1 = k2
      · simp [he2]
      · simp only [if_neg he2]
        exact ih

theorem lookupKey_eraseKey_ne {m : List (α × β)} {k k2 : α} (h : k2 ≠ k) :
    lookupKey (eraseKey m k) k2 = lookupKey m k2 := by
  induction m with
  | nil => simp [eraseKey]
  | cons e rest ih =>
    by_cases he : e.1 = k
    · have hne : ¬ (e.1 = k2) := fun hx => h ((hx.symm.trans he).symm ▸ rfl)
      simp [eraseKey, lookupKey, he, Ne.symm h]
    · simp only [eraseKey, if_neg he, lookupKey]
      by_cases he2 : e.1 = k2
      · simp [he2]
      · simp only [if_neg he2]
        exact ih

theorem eraseKey_sublist (m : List (α × β)) (k : α) :
    (eraseKey m k).Sublist m := by
  induction m with
  | nil => simp [eraseKey]
  | cons e rest ih =>
    by_cases he : e.1 = k
    · simp only [eraseKey, if_pos he]
      exact List.sublist_cons_self _ _
    · simp only [eraseKey, if_neg he]
      exact List.Sublist.cons₂ _ ih

theorem keysOf_eraseKey_sublist (m : List (α × β)) (k : α) :
    (keysOf (eraseKey m k)).Sublist (keysOf m) :=
  List.Sublist.map Prod.fst (eraseKey_sublist m k)

theorem lookupKey_eraseKey_self {m : List (α × β)} {k : α}
    (nd : (keysOf m).Nodup) : lookupKey (eraseKey m k) k = none := by
  induction m with
  | nil => simp [eraseKey, lookupKey]
  | cons e rest ih =>
    simp only [keysOf, List.map_cons, List.nodup_cons] at nd
    by_cases he : e.1 = k
    · simp only [eraseKey, if_pos he]
      rw [lookupKey_eq_none_iff, ← he]
      exact nd.1
    · simp only [eraseKey, if_neg he, lookupKey, if_neg he]
      exact ih nd.2

theorem lookupKey_append_right {m : List (α × β)} (m2 : List (α × β)) {k : α}
    (h : lookupKey m k = none) : lookupKey (m ++ m2) k = lookupKey m2 k := by
  induction m with
  | nil => simp
  | cons e rest ih =>
    by_cases he : e.1 = k
    · simp [lookupKey, he] at h
    · simp only [lookupKey, if_neg he] at h
      simp only [List.cons_append, lookupKey, if_neg he]
      exact ih h

theorem setKey_of_absent {m : List (α × β)} {k : α} (v : β)
    (h : lookupKey m k = none) : setKey m k v = m ++ [(k, v)] := by
  induction m with
  | nil => simp [setKey]
  | cons e rest ih =>
    by_cases he : e.1 = k
    · simp [lookupKey, he] at h
    · simp only [lookupKey, if_neg he] at h
      simp only [setKey, if_neg he, List.cons_append]
      rw [ih h]

theorem setKey_self_of_lookup {m : List (α × β)} {k : α} {v : β}
    (h : lookupKey m k = some v) : setKey m k v = m := by
  induction m with
  | nil => simp [lookupKey] at h
  | cons e rest ih =>
    by_cases he : e.1 = k
    · simp only [lookupKey, if_pos he] at h
      injection h with h2
      simp only [setKey, if_pos he]
      rw [← he, ← h2]
    · simp only [lookupKey, if_neg he] at h
      simp only [setKey, if_neg he]
      rw [ih h]

theorem setKey_setKey (m : List (α × β)) (k : α) (v w : β) :
    setKey (setKey m k v) k w = setKey m k w := by
  induction m with
  | nil => simp [setKey]
  | cons e rest ih =>
    by_cases he : e.1 = k
    · simp [setKey, he]
    · simp only [setKey, if_neg he]
      rw [ih]

theorem eraseKey_append_of_absent {m : List (α × β)} {k : α} (v : β)
    (h : lookupKey m k = none) : eraseKey (m ++ [(k, v)]) k = m := by
  induction m with
  | nil => simp [eraseKey]
  | cons e rest ih =>
    by_cases he : e.1 = k
    · simp [lookupKey, he] at h
    · simp only [lookupKey, if_neg he] at h
      simp only [List.cons_append, eraseKey, if_neg he]
      exact congrArg (e :: ·) (ih h)

theorem mem_setKey {m : List (α × β)} {k : α} {v : β} {e : α × β}
    (h : e ∈ setKey m k v) : e ∈ m ∨ e = (k, v) := by
  induction m with
  | nil =>
    simp [setKey] at h
    right
    exact h
  | cons e2 rest ih =>
    by_cases he : e2.1 = k
    · simp only [setKey, if_pos he, List.mem_cons] at h
      rcases h with h | h
      · right; exact h
      · left; exact List.mem_cons_of_mem _ h
    · simp only [setKey, if_neg he, List.mem_cons] at h
      rcases h with h | h
      · left; exact List.mem_cons.mpr (Or.inl h)
      · rcases ih h with h2 | h2
        · left; exact List.mem_cons_of_mem _ h2
        · right; exact h2

theorem length_eraseKey {m : List (α × β)} {k : α} {v : β}
    (h : lookupKey m k = some v) : (eraseKey m k).length + 1 = m.length := by
  induction m with
  | nil => simp [lookupKey] at h
  | cons e rest ih =>
    by_cases he : e.1 = k
    · simp [eraseKey, he]
    · simp only [lookupKey, if_neg he] at h
      simp only [eraseKey, if_neg he, List.length_cons]
      rw [← ih h]

theorem keysOf_setKey_of_lookup {m : List (α × β)} {k : α} {w : β} (v : β)
    (h : lookupKey m k = some w) : keysOf (setKey m k v) = keysOf m := by
  induction m with
  | nil => simp [lookupKey] at h
  | cons e rest ih =>
    by_cases he : e.1 = k
    · simp only [setKey, if_pos he, keysOf, List.map_cons]
      rw [he]
    · simp only [lookupKey, if_neg he] at h
      simp only [setKey, if_neg he, keysOf, List.map_cons]
      have h2 := ih h
      simp only [keysOf] at h2
      rw [h2]

theorem keysOf_setKey_of_absent {m : List (α × β)} {k : α} (v : β)
    (h : lookupKey m k = none) : keysOf (setKey m k v) = keysOf m ++ [k] := by
  rw [setKey_of_absent v h]
  simp [keysOf]

theorem setKey_ne_nil (m : List (α × β)) (k : α) (v : β) : setKey m k v ≠ [] := by
  cases m with
  | nil => simp [setKey]
  | cons e rest =>
    by_cases he : e.1 = k <;> simp [setKey, he]

theorem eraseKey_eq_nil {m : List (α × β)} {k : α} {v : β}
    (h : lookupKey m k = some v) (hnil : eraseKey m k = []) : m = [(k, v)] := by
  cases m with
  | nil => simp [lookupKey] at h
  | cons e rest =>
    by_cases he : e.1 = k
    · simp only [eraseKey, if_pos he] at hnil
      simp only [lookupKey, if_pos he] at h
      injection h with h2
      subst hnil
      rw [← he, ← h2]
    · simp only [eraseKey, if_neg he] at hnil
      exact absurd hnil (List.cons_ne_nil _ _)

end AssocLemmas

section SumLocalLemmas

theorem sumLocalAux_append (m m2 : ParticipantTopicMap) (t : String) :
    sumLocalAux (m ++ m2) t = sumLocalAux m t ++ sumLocalAux m2 t := by
  induction m with
  | nil => simp [sumLocalAux]
  | cons e rest ih => simp [sumLocalAux, ih]

theorem count_sumLocalAux_setKey_of_lookup {m : ParticipantTopicMap} {p : GUID}
    {io : TopicToTypes} (v : TopicToTypes) (h : lookupKey m p = some io)
    (t a : String) :
    (sumLocalAux (setKey m p v) t).count a + ((lookupKey io t).getD []).count a
      = (sumLocalAux m t).count a + ((lookupKey v t).getD []).count a := by
  induction m with
  | nil => simp [lookupKey] at h
  | cons e rest ih =>
    by_cases he : e.1 = p
    · simp only [lookupKey, if_pos he] at h
      injection h with h2
      simp only [setKey, if_pos he, sumLocalAux, List.count_append]
      rw [← h2]
      omega
    · simp only [lookupKey, if_neg he] at h
      simp only [setKey, if_neg he, sumLocalAux, List.count_append]
      have h3 := ih h
      omega

theorem count_sumLocalAux_setKey_of_absent {m : ParticipantTopicMap} {p : GUID}
    (v : TopicToTypes) (h : lookupKey m p = none) (t a : String) :
    (sumLocalAux (setKey m p v) t).count a
      = (sumLocalAux m t).count a + ((lookupKey v t).getD []).count a := by
  rw [setKey_of_absent v h, sumLocalAux_append, List.count_append]
  simp [sumLocalAux]

theorem count_sumLocalAux_eraseKey {m : ParticipantTopicMap} {p : GUID}
    {io : TopicToTypes} (h : lookupKey m p = some io) (t a : String) :
    (sumLocalAux (eraseKey m p) t).count a + ((lookupKey io t).getD []).count a
      = (sumLocalAux m t).count a := by
  induction m with
  | nil => simp [lookupKey] at h
  | cons e rest ih =>
    by_cases he : e.1 = p
    · simp only [lookupKey, if_pos he] at h
      injection h with h2
      simp only [eraseKey, if_pos he, sumLocalAux, List.count_append]
      rw [← h2]
      omega
    · simp only [lookupKey, if_neg he] at h
      simp only [eraseKey, if_neg he, sumLocalAux, List.count_append]
      have h3 := ih h
      omega

theorem count_le_sumLocalAux {m : ParticipantTopicMap} {p : GUID}
    {io : TopicToTypes} (h : lookupKey m p = some io) (t a : String) :
    ((lookupKey io t).getD []).count a ≤ (sumLocalAux m t).count a := by
  induction m with
  | nil => simp [lookupKey] at h
  | cons e rest ih =>
    by_cases he : e.1 = p
    · simp only [lookupKey, if_pos he] at h
      injection h with h2
      simp only [sumLocalAux, List.count_append]
      rw [← h2]
      omega
    · simp only [lookupKey, if_neg he] at h
      simp only [sumLocalAux, List.count_append]
      have h3 := ih h
      omega

end SumLocalLemmas

theorem lookupKey_appendType_self (m : NameToNamesMap) (t ty : String) :
    lookupKey (appendType m t ty) t = some (((lookupKey m t).getD []) ++ [ty]) := by
  unfold appendType
  cases h : lookupKey m t with
  | none =>
    rw [lookupKey_append_right _ h]
    simp [lookupKey]
  | some vec =>
    simp [lookupKey_setKey_self]

theorem lookupKey_appendType_ne (m : NameToNamesMap) {t t2 : String} (ty : String)
    (h : t2 ≠ t) : lookupKey (appendType m t ty) t2 = lookupKey m t2 := by
  unfold appendType
  cases hl : lookupKey m t with
  | none =>
    cases h2 : lookupKey m t2 with
    | none =>
      rw [lookupKey_append_right _ h2]
      simp [lookupKey, Ne.symm h]
    | some vec =>
      induction m with
      | nil => simp [lookupKey] at h2
      | cons e rest ih =>
        by_cases he : e.1 = t2
        · simp only [lookupKey, if_pos he] at h2
          simp only [List.cons_append, lookupKey, if_pos he]
          exact h2
        · simp only [lookupKey, if_neg he] at h2 hl
          by_cases he1 : e.1 = t
          · simp [lookupKey, he1] at hl
          · simp only [lookupKey, if_neg he1] at hl
            simp only [List.cons_append, lookupKey, if_neg he]
            exact ih hl h2
  | some vec => exact lookupKey_setKey_ne _ h

theorem appendType_eq (m : NameToNamesMap) (t ty : String) :
    setKey (initializeTopic t m) t
        (((lookupKey (initializeTopic t m) t).getD []) ++ [ty])
      = appendType m t ty := by
  unfold initializeTopic appendType
  cases h : lookupKey m t with
  | none =>
    rw [lookupKey_setKey_self]
    simp only [Option.getD_some, List.nil_append]
    rw [setKey_setKey]
    exact setKey_of_absent _ h
  | some vec =>
    rw [h]
    simp only [Option.getD_some]

theorem lookupKey_initializeParticipantMap_getD (m : ParticipantTopicMap) (p : GUID) :
    (lookupKey (initializeParticipantMap m p) p).getD []
      = (lookupKey m p).getD [] := by
  unfold initializeParticipantMap
  cases h : lookupKey m p with
  | none =>
    rw [lookupKey_setKey_self]
    simp [h]
  | some v => simp [h]

theorem setKey_initializeParticipantMap (m : ParticipantTopicMap) (p : GUID)
    (v : TopicToTypes) :
    setKey (initializeParticipantMap m p) p v = setKey m p v := by
  unfold initializeParticipantMap
  cases h : lookupKey m p with
  | none => rw [setKey_setKey]
  | some w => rfl

/-- `addTopic` in closed form: the global map gets `ty` appended under
`t`, the participant map gets the same append applied to `p`'s inner
map, and the call returns `true`. -/
theorem addTopic_unfold (c : TopicCache) (p : GUID) (t ty : String) :
    addTopic c p t ty =
      (⟨appendType c.topic_to_types_ t ty,
        setKey c.participant_to_topics_ p
          (appendType ((lookupKey c.participant_to_topics_ p).getD []) t ty)⟩,
       true) := by
  simp only [addTopic]
  rw [appendType_eq]
  rw [lookupKey_setKey_self]
  simp only [Option.getD_some]
  rw [setKey_setKey, appendType_eq]
  rw [lookupKey_initializeParticipantMap_getD, setKey_initializeParticipantMap]

/-- Case analysis of a defined `removeTopic` execution: either the early
`false` return with no mutation, or the global removal with the local
half either skipped (no local key for the topic) or also removing. -/
theorem removeTopic_some_elim {c c2 : TopicCache} {p : GUID} {t ty : String}
    {b : Bool} (h : removeTopic c p t ty = some (c2, b)) :
    (lookupKey c.topic_to_types_ t = none ∧ c2 = c ∧ b = false) ∨
    (∃ vec, lookupKey c.topic_to_types_ t = some vec ∧ ty ∈ vec ∧ b = true ∧
      c2.topic_to_types_ = (if vec.erase ty = [] then eraseKey c.topic_to_types_ t
        else setKey c.topic_to_types_ t (vec.erase ty)) ∧
      ((c2.participant_to_topics_ = c.participant_to_topics_ ∧
        lookupKey ((lookupKey c.participant_to_topics_ p).getD []) t = none) ∨
       (∃ inner lvec, lookupKey c.participant_to_topics_ p = some inner ∧
         lookupKey inner t = some lvec ∧ ty ∈ lvec ∧
         c2.participant_to_topics_ =
           (if (if lvec.erase ty = [] then eraseKey inner t
                else setKey inner t (lvec.erase ty)) = []
            then eraseKey c.participant_to_topics_ p
            else setKey c.participant_to_topics_ p
              (if lvec.erase ty = [] then eraseKey inner t
               else setKey inner t (lvec.erase ty)))))) := by
  cases hg : lookupKey c.topic_to_types_ t with
  | none =>
    simp only [removeTopic, hg, findErase] at h
    left
    obtain ⟨h1, h2⟩ := Prod.mk.injEq .. ▸ (Option.some.injEq .. ▸ h)
    exact ⟨rfl, h1.symm, h2.symm⟩
  | some vec =>
    by_cases hm : ty ∈ vec
    · right
      refine ⟨vec, rfl, hm, ?_⟩
      cases hp : lookupKey c.participant_to_topics_ p with
      | none =>
        simp only [removeTopic, hg, findErase, if_pos hm, hp] at h
        obtain ⟨h1, h2⟩ := Prod.mk.injEq .. ▸ (Option.some.injEq .. ▸ h)
        refine ⟨h2.symm, ?_, ?_⟩
        · rw [← h1]
        · left
          rw [← h1]
          simp [hp, lookupKey]
      | some inner =>
        cases hin : lookupKey inner t with
        | none =>
          simp only [removeTopic, hg, findErase, if_pos hm, hp, hin] at h
          obtain ⟨h1, h2⟩ := Prod.mk.injEq .. ▸ (Option.some.injEq .. ▸ h)
          refine ⟨h2.symm, ?_, ?_⟩
          · rw [← h1]
          · left
            rw [← h1]
            simp [hp, hin]
        | some lvec =>
          by_cases hm2 : ty ∈ lvec
          · simp only [removeTopic, hg, findErase, if_pos hm, hp, hin,
              if_pos hm2] at h
            obtain ⟨h1, h2⟩ := Prod.mk.injEq .. ▸ (Option.some.injEq .. ▸ h)
            refine ⟨h2.symm, ?_, ?_⟩
            · rw [← h1]
            · right
              exact ⟨inner, lvec, rfl, hin, hm2, by rw [← h1]⟩
          · simp only [removeTopic, hg, findErase, if_pos hm, hp, hin,
              if_neg hm2] at h
            exact Option.noConfusion h
    · simp only [removeTopic, hg, findErase, if_neg hm] at h
      exact Option.noConfusion h

theorem appendType_ne_nil (m : NameToNamesMap) (t ty : String) :
    appendType m t ty ≠ [] := by
  unfold appendType
  cases h : lookupKey m t with
  | none => simp
  | some vec => exact setKey_ne_nil _ _ _

theorem keysOf_appendType_absent {m : NameToNamesMap} {t : String} (ty : String)
    (h : lookupKey m t = none) :
    keysOf (appendType m t ty) = keysOf m ++ [t] := by
  unfold appendType
  rw [h]
  simp [keysOf]

theorem keysOf_appendType_present {m : NameToNamesMap} {t : String} {vec : TypeList}
    (ty : String) (h : lookupKey m t = some vec) :
    keysOf (appendType m t ty) = keysOf m := by
  unfold appendType
  rw [h]
  exact keysOf_setKey_of_lookup _ h

theorem nodup_keysOf_appendType {m : NameToNamesMap} (t ty : String)
    (nd : (keysOf m).Nodup) : (keysOf (appendType m t ty)).Nodup := by
  cases h : lookupKey m t with
  | none =>
    rw [keysOf_appendType_absent ty h]
    have ht : t ∉ keysOf m := (lookupKey_eq_none_iff m t).mp h
    simp [List.nodup_append, nd, ht]
  | some vec =>
    rw [keysOf_appendType_present ty h]
    exact nd

theorem mem_appendType {m : NameToNamesMap} {t ty : String} {e : String × TypeList}
    (h : e ∈ appendType m t ty) :
    e ∈ m ∨ e = (t, ((lookupKey m t).getD []) ++ [ty]) := by
  unfold appendType at h
  cases hl : lookupKey m t with
  | none =>
    rw [hl] at h
    rcases List.mem_append.mp h with h2 | h2
    · left; exact h2
    · right
      simpa using h2
  | some vec =>
    rw [hl] at h
    rcases mem_setKey h with h2 | h2
    · left; exact h2
    · right
      simpa using h2

theorem addTopic_global (c : TopicCache) (p : GUID) (t ty : String) :
    (addTopic c p t ty).1.topic_to_types_ = appendType c.topic_to_types_ t ty := by
  rw [addTopic_unfold]

theorem addTopic_local (c : TopicCache) (p : GUID) (t ty : String) :
    (addTopic c p t ty).1.participant_to_topics_ =
      setKey c.participant_to_topics_ p
        (appendType ((lookupKey c.participant_to_topics_ p).getD []) t ty) := by
  rw [addTopic_unfold]

theorem addTopic_true (c : TopicCache) (p : GUID) (t ty : String) :
    (addTopic c p t ty).2 = true := by
  rw [addTopic_unfold]

theorem WFKeys_add (c : TopicCache) (p : GUID) (t ty : String)
    (h : WFKeys c) : WFKeys (addTopic c p t ty).1 := by
  obtain ⟨h1, h2, h3⟩ := h
  unfold WFKeys
  rw [addTopic_global, addTopic_local]
  refine ⟨nodup_keysOf_appendType t ty h1, ?_, ?_⟩
  · cases hp : lookupKey c.participant_to_topics_ p with
    | none =>
      rw [keysOf_setKey_of_absent _ hp]
      have hq : p ∉ keysOf c.participant_to_topics_ :=
        (lookupKey_eq_none_iff _ p).mp hp
      simp [List.nodup_append, h2, hq]
    | some io =>
      rw [keysOf_setKey_of_lookup _ hp]
      exact h2
  · intro e he
    rcases mem_setKey he with h4 | h4
    · exact h3 e h4
    · rw [h4]
      apply nodup_keysOf_appendType
      cases hp : lookupKey c.participant_to_topics_ p with
      | none => simp [keysOf]
      | some io =>
        simpa using h3 (p, io) (lookupKey_mem hp)

theorem NoEmptyVals_add (c : TopicCache) (p : GUID) (t ty : String)
    (h : NoEmptyVals c) : NoEmptyVals (addTopic c p t ty).1 := by
  obtain ⟨h1, h2⟩ := h
  unfold NoEmptyVals
  rw [addTopic_global, addTopic_local]
  constructor
  · intro e he
    rcases mem_appendType he with h3 | h3
    · exact h1 e h3
    · rw [h3]
      simp
  · intro e he
    rcases mem_setKey he with h3 | h3
    · exact h2 e h3
    · rw [h3]
      refine ⟨appendType_ne_nil _ t ty, ?_⟩
      intro f hf
      rcases mem_appendType hf with h4 | h4
      · cases hp : lookupKey c.participant_to_topics_ p with
        | none =>
          rw [hp] at h4
          simp at h4
        | some io =>
          rw [hp] at h4
          exact (h2 (p, io) (lookupKey_mem hp)).2 f (by simpa using h4)
      · rw [h4]
        simp

theorem WFKeys_remove {c c2 : TopicCache} {p : GUID} {t ty : String} {b : Bool}
    (hw : WFKeys c) (h : removeTopic c p t ty = some (c2, b)) : WFKeys c2 := by
  obtain ⟨h1, h2, h3⟩ := hw
  rcases removeTopic_some_elim h with ⟨_, rfl, _⟩ | ⟨vec, hg, hm, hb, hgl, hloc⟩
  · exact ⟨h1, h2, h3⟩
  · have hg2 : (keysOf c2.topic_to_types_).Nodup := by
      rw [hgl]
      by_cases hz : vec.erase ty = []
      · rw [if_pos hz]
        exact List.Nodup.sublist (keysOf_eraseKey_sublist _ _) h1
      · rw [if_neg hz, keysOf_setKey_of_lookup _ hg]
        exact h1
    rcases hloc with ⟨hpl, _⟩ | ⟨inner, lvec, hp, hin, hm2, hpl⟩
    · refine ⟨hg2, ?_, ?_⟩
      · rw [hpl]
        exact h2
      · rw [hpl]
        exact h3
    · have hinner : (keysOf inner).Nodup := by
        simpa using h3 (p, inner) (lookupKey_mem hp)
      have hinner1 : (keysOf (if lvec.erase ty = [] then eraseKey inner t
          else setKey inner t (lvec.erase ty))).Nodup := by
        by_cases hz2 : lvec.erase ty = []
        · rw [if_pos hz2]
          exact List.Nodup.sublist (keysOf_eraseKey_sublist _ _) hinner
        · rw [if_neg hz2, keysOf_setKey_of_lookup _ hin]
          exact hinner
      refine ⟨hg2, ?_, ?_⟩
      · rw [hpl]
        by_cases hz3 : (if lvec.erase ty = [] then eraseKey inner t
            else setKey inner t (lvec.erase ty)) = []
        · rw [if_pos hz3]
          exact List.Nodup.sublist (keysOf_eraseKey_sublist _ _) h2
        · rw [if_neg hz3, keysOf_setKey_of_lookup _ hp]
          exact h2
      · rw [hpl]
        intro e he
        by_cases hz3 : (if lvec.erase ty = [] then eraseKey inner t
            else setKey inner t (lvec.erase ty)) = []
        · rw [if_pos hz3] at he
          exact h3 e ((eraseKey_sublist _ _).subset he)
        · rw [if_neg hz3] at he
          rcases mem_setKey he with h4 | h4
          · exact h3 e h4
          · rw [h4]
            exact hinner1

theorem NoEmptyVals_remove {c c2 : TopicCache} {p : GUID} {t ty : String} {b : Bool}
    (hw : NoEmptyVals c) (h : removeTopic c p t ty = some (c2, b)) :
    NoEmptyVals c2 := by
  obtain ⟨h1, h2⟩ := hw
  rcases removeTopic_some_elim h with ⟨_, rfl, _⟩ | ⟨vec, hg, hm, hb, hgl, hloc⟩
  · exact ⟨h1, h2⟩
  · have hg2 : ∀ e ∈ c2.topic_to_types_, e.2 ≠ [] := by
      rw [hgl]
      by_cases hz : vec.erase ty = []
      · rw [if_pos hz]
        intro e he
        exact h1 e ((eraseKey_sublist _ _).subset he)
      · rw [if_neg hz]
        intro e he
        rcases mem_setKey he with h4 | h4
        · exact h1 e h4
        · rw [h4]
          exact hz
    rcases hloc with ⟨hpl, _⟩ | ⟨inner, lvec, hp, hin, hm2, hpl⟩
    · refine ⟨hg2, ?_⟩
      rw [hpl]
      exact h2
    · have hie := h2 (p, inner) (lookupKey_mem hp)
      have hinner1 : ∀ f ∈ (if lvec.erase ty = [] then eraseKey inner t
          else setKey inner t (lvec.erase ty)), f.2 ≠ [] := by
        by_cases hz2 : lvec.erase ty = []
        · rw [if_pos hz2]
          intro f hf
          exact hie.2 f ((eraseKey_sublist _ _).subset hf)
        · rw [if_neg hz2]
          intro f hf
          rcases mem_setKey hf with h4 | h4
          · exact hie.2 f h4
          · rw [h4]
            exact hz2
      refine ⟨hg2, ?_⟩
      rw [hpl]
      by_cases hz3 : (if lvec.erase ty = [] then eraseKey inner t
          else setKey inner t (lvec.erase ty)) = []
      · rw [if_pos hz3]
        intro e he
        exact h2 e ((eraseKey_sublist _ _).subset he)
      · rw [if_neg hz3]
        intro e he
        rcases mem_setKey he with h4 | h4
        · exact h2 e h4
        · rw [h4]
          exact ⟨hz3, hinner1⟩

/-- Every reachable state has unique association-list keys at all levels
and no empty collections. -/
theorem reachable_WF {c : TopicCache} (h : Reachable c) :
    WFKeys c ∧ NoEmptyVals c := by
  induction h with
  | empty =>
    constructor
    · exact ⟨by simp [emptyCache, keysOf], by simp [emptyCache, keysOf],
        by simp [emptyCache]⟩
    · exact ⟨by simp [emptyCache], by simp [emptyCache]⟩
  | add c p t ty _ ih =>
    exact ⟨WFKeys_add c p t ty ih.1, NoEmptyVals_add c p t ty ih.2⟩
  | remove c c2 p t ty b _ hr ih =>
    exact ⟨WFKeys_remove ih.1 hr, NoEmptyVals_remove ih.2 hr⟩

theorem count_erase_of_mem {l : TypeList} {b : String} (h : b ∈ l) (a : String) :
    (l.erase b).count a + (if a = b then 1 else 0) = l.count a := by
  have hc := List.count_erase a b l
  by_cases hab : a = b
  · subst hab
    have hpos : 0 < l.count a := List.count_pos_iff.mpr h
    simp only [beq_self_eq_true, if_true] at hc
    rw [hc, if_pos rfl]
    omega
  · have hba : ¬ ((b == a) = true) := by
      simp only [beq_iff_eq]
      exact fun he => hab he.symm
    rw [if_neg hab, hc, if_neg hba]
    omega

theorem erase_eq_nil_of_mem {l : TypeList} {b : String} (h : b ∈ l)
    (hz : l.erase b = []) : l = [b] := by
  cases l with
  | nil => cases h
  | cons x xs =>
    by_cases hx : x = b
    · subst hx
      rw [List.erase_cons_head] at hz
      rw [hz]
    · rw [List.erase_cons_tail (by simpa using hx)] at hz
      exact absurd hz (List.cons_ne_nil _ _)

theorem count_getD_appendType (io : NameToNamesMap) (t ty t2 a : String) :
    ((lookupKey (appendType io t ty) t2).getD []).count a
      = ((lookupKey io t2).getD []).count a
        + (if t2 = t then (if a = ty then 1 else 0) else 0) := by
  by_cases ht : t2 = t
  · subst ht
    rw [lookupKey_appendType_self, if_pos rfl]
    simp only [Option.getD_some, List.count_append]
    by_cases ha : a = ty
    · subst ha
      rw [if_pos rfl]
      simp [List.count_cons]
    · rw [if_neg ha]
      have : ¬ ((ty == a) = true) := by
        simp only [beq_iff_eq]
        exact fun he => ha he.symm
      simp [List.count_cons, this]
  · rw [lookupKey_appendType_ne _ _ ht, if_neg ht]
    omega

theorem I3Count_add (c : TopicCache) (p : GUID) (t ty : String)
    (h : I3Count c) : I3Count (addTopic c p t ty).1 := by
  intro t2 a
  unfold sumLocalTypes globalTypes
  rw [addTopic_global, addTopic_local, count_getD_appendType]
  have hsum := h t2 a
  unfold sumLocalTypes globalTypes at hsum
  cases hp : lookupKey c.participant_to_topics_ p with
  | none =>
    rw [count_sumLocalAux_setKey_of_absent _ hp]
    simp only [hp, Option.getD_none]
    rw [count_getD_appendType]
    have hz : ((lookupKey ([] : NameToNamesMap) t2).getD []).count a = 0 := by
      simp [lookupKey]
    omega
  | some io =>
    have hkey := count_sumLocalAux_setKey_of_lookup (appendType io t ty) hp t2 a
    simp only [hp, Option.getD_some]
    rw [count_getD_appendType] at hkey
    omega

theorem I3Count_remove {c c2 : TopicCache} {p : GUID} {t ty : String} {b : Bool}
    (hw : WFKeys c) (hi : I3Count c) (hmem : ty ∈ localTypes c p t)
    (h : removeTopic c p t ty = some (c2, b)) : I3Count c2 := by
  obtain ⟨inner, hp⟩ : ∃ inner, lookupKey c.participant_to_topics_ p = some inner := by
    cases hq : lookupKey c.participant_to_topics_ p with
    | none =>
      unfold localTypes at hmem
      rw [hq] at hmem
      simp [lookupKey] at hmem
    | some io => exact ⟨io, rfl⟩
  obtain ⟨lvec, hin, hmem2⟩ :
      ∃ lvec, lookupKey inner t = some lvec ∧ ty ∈ lvec := by
    unfold localTypes at hmem
    rw [hp] at hmem
    simp only [Option.getD_some] at hmem
    cases hq : lookupKey inner t with
    | none =>
      rw [hq] at hmem
      simp at hmem
    | some lv =>
      rw [hq] at hmem
      exact ⟨lv, rfl, by simpa using hmem⟩
  have hinnd : (keysOf inner).Nodup := by
    simpa using hw.2.2 (p, inner) (lookupKey_mem hp)
  rcases removeTopic_some_elim h with ⟨hgnone, _, _⟩ | ⟨vec, hg, hm, hb, hgl, hloc⟩
  · exfalso
    have h1 := hi t ty
    unfold sumLocalTypes globalTypes at h1
    rw [hgnone] at h1
    simp only [Option.getD_none, List.count_nil] at h1
    have h2 := count_le_sumLocalAux hp t ty
    rw [hin] at h2
    simp only [Option.getD_some] at h2
    have h3 : 0 < lvec.count ty := List.count_pos_iff.mpr hmem2
    omega
  · rcases hloc with ⟨hpl, hnone⟩ | ⟨inner2, lvec2, hp2, hin2, hmem3, hpl⟩
    · exfalso
      rw [hp] at hnone
      simp only [Option.getD_some] at hnone
      rw [hin] at hnone
      exact Option.noConfusion hnone
    · rw [hp] at hp2
      injection hp2 with hp3
      subst hp3
      rw [hin] at hin2
      injection hin2 with hin3
      subst hin3
      intro t2 a
      unfold sumLocalTypes globalTypes
      have hsum := hi t2 a
      unfold sumLocalTypes globalTypes at hsum
      by_cases ht : t2 = t
      · subst ht
        have hgc : ((lookupKey c2.topic_to_types_ t2).getD []).count a
            = (vec.erase ty).count a := by
          rw [hgl]
          by_cases hz : vec.erase ty = []
          · rw [if_pos hz, lookupKey_eraseKey_self hw.1, hz]
            simp
          · rw [if_neg hz, lookupKey_setKey_self]
            simp
        rw [hgc]
        rw [hg] at hsum
        simp only [Option.getD_some] at hsum
        have hce1 := count_erase_of_mem hm a
        have hce2 := count_erase_of_mem hmem2 a
        by_cases hz3 : (if lvec.erase ty = [] then eraseKey inner t2
            else setKey inner t2 (lvec.erase ty)) = []
        · rw [if_pos hz3] at hpl
          have hz2 : lvec.erase ty = [] := by
            by_contra hc
            rw [if_neg hc] at hz3
            exact setKey_ne_nil _ _ _ hz3
          have hkey := count_sumLocalAux_eraseKey hp t2 a
          rw [hin] at hkey
          simp only [Option.getD_some] at hkey
          rw [hpl]
          rw [hz2] at hce2
          simp only [List.count_nil] at hce2
          omega
        · rw [if_neg hz3] at hpl
          have hkey := count_sumLocalAux_setKey_of_lookup
            (if lvec.erase ty = [] then eraseKey inner t2
             else setKey inner t2 (lvec.erase ty)) hp t2 a
          rw [hin] at hkey
          simp only [Option.getD_some] at hkey
          rw [hpl]
          have hlc : ((lookupKey (if lvec.erase ty = [] then eraseKey inner t2
              else setKey inner t2 (lvec.erase ty)) t2).getD []).count a
              = (lvec.erase ty).count a := by
            by_cases hz : lvec.erase ty = []
            · rw [if_pos hz, lookupKey_eraseKey_self hinnd, hz]
              simp
            · rw [if_neg hz, lookupKey_setKey_self]
              simp
          rw [hlc] at hkey
          omega
      · have hgc : lookupKey c2.topic_to_types_ t2 = lookupKey c.topic_to_types_ t2 := by
          rw [hgl]
          by_cases hz : vec.erase ty = []
          · rw [if_pos hz, lookupKey_eraseKey_ne ht]
          · rw [if_neg hz, lookupKey_setKey_ne _ ht]
        rw [hgc, ← hsum]
        by_cases hz3 : (if lvec.erase ty = [] then eraseKey inner t
            else setKey inner t (lvec.erase ty)) = []
        · rw [if_pos hz3] at hpl
          have hz2 : lvec.erase ty = [] := by
            by_contra hc
            rw [if_neg hc] at hz3
            exact setKey_ne_nil _ _ _ hz3
          rw [if_pos hz2] at hz3
          have hsing : inner = [(t, lvec)] := eraseKey_eq_nil hin hz3
          have hkey := count_sumLocalAux_eraseKey hp t2 a
          have hnone2 : lookupKey inner t2 = none := by
            rw [hsing]
            have ht2 : ¬ (t = t2) := fun he => ht he.symm
            simp [lookupKey, ht2]
          rw [hnone2] at hkey
          simp only [Option.getD_none, List.count_nil] at hkey
          rw [hpl]
          omega
        · rw [if_neg hz3] at hpl
          have hkey := count_sumLocalAux_setKey_of_lookup
            (if lvec.erase ty = [] then eraseKey inner t
             else setKey inner t (lvec.erase ty)) hp t2 a
          rw [hpl]
          have hlc : lookupKey (if lvec.erase ty = [] then eraseKey inner t
              else setKey inner t (lvec.erase ty)) t2 = lookupKey inner t2 := by
            by_cases hz : lvec.erase ty = []
            · rw [if_pos hz, lookupKey_eraseKey_ne ht]
            · rw [if_neg hz, lookupKey_setKey_ne _ ht]
          rw [hlc] at hkey
          omega

theorem mreach_reachable {c : TopicCache} (h : MatchedReachable c) : Reachable c := by
  induction h with
  | empty => exact Reachable.empty
  | add c p t ty _ ih => exact Reachable.add c p t ty ih
  | remove c c2 p t ty b _ hmem hr ih => exact Reachable.remove c c2 p t ty b ih hr

theorem mreach_I3Count {c : TopicCache} (h : MatchedReachable c) : I3Count c := by
  induction h with
  | empty =>
    intro t a
    rfl
  | add c p t ty _ ih => exact I3Count_add c p t ty ih
  | remove c c2 p t ty b hm hmem hr ih =>
    exact I3Count_remove (reachable_WF (mreach_reachable hm)).1 ih hmem hr

/-- C1 (amended): in every state reachable from the empty index by
`addTopic` calls and matched `removeTopic` calls (each removal targets a
(participant, topic, type) currently present in that participant's own
local view), the multiset union over all participants of the local
`TypeList`s for a topic equals the global `TypeList` for that topic, and
each participant's local multiset is a sub-multiset of the global one.
Unrestricted removals break this (see the counterexample). -/
theorem crossmap_consistency_matched {c : TopicCache} (h : MatchedReachable c) :
    (∀ t, List.Perm (sumLocalTypes c t) (globalTypes c t)) ∧
    (∀ p t, List.Subperm (localTypes c p t) (globalTypes c t)) := by
  have hi := mreach_I3Count h
  constructor
  · intro t
    exact List.perm_iff_count.mpr (fun a => hi t a)
  · intro p t
    apply List.subperm_ext_iff.mpr
    intro x hx
    cases hp : lookupKey c.participant_to_topics_ p with
    | none =>
      unfold localTypes at hx
      rw [hp] at hx
      simp [lookupKey] at hx
    | some io =>
      have hle := count_le_sumLocalAux hp t x
      have hcount := hi t x
      unfold sumLocalTypes at hcount
      unfold localTypes
      rw [hp]
      simp only [Option.getD_some] at hle ⊢
      omega

/-- Witness for C1's amended theorem at a concrete matched-trace state. -/
theorem crossmap_consistency_matched_witness :
    List.Perm (sumLocalTypes (addTopic emptyCache 0 "t" "A").1 "t")
      (globalTypes (addTopic emptyCache 0 "t" "A").1 "t") :=
  (crossmap_consistency_matched
    (MatchedReachable.add emptyCache 0 "t" "A" MatchedReachable.empty)).1 "t"

/-- C1 counterexample: the state reached by
`addTopic(0,t,A); addTopic(1,t,A); removeTopic(2,t,A)` is reachable, `t`
is a key of the global map, but the participants' local lists for `t`
sum to two copies of `A` while the global list holds one: the multiset
union does not equal the global `TypeList`. -/
theorem crossmap_consistency_counterexample :
    Reachable (⟨[("t", ["A"])], [(0, [("t", ["A"])]), (1, [("t", ["A"])])]⟩ :
      TopicCache) ∧
    (lookupKey (⟨[("t", ["A"])], [(0, [("t", ["A"])]), (1, [("t", ["A"])])]⟩ :
      TopicCache).topic_to_types_ "t").isSome = true ∧
    ¬ List.Perm
      (sumLocalTypes ⟨[("t", ["A"])], [(0, [("t", ["A"])]), (1, [("t", ["A"])])]⟩ "t")
      (globalTypes ⟨[("t", ["A"])], [(0, [("t", ["A"])]), (1, [("t", ["A"])])]⟩ "t") := by
  refine ⟨?_, by decide, by decide⟩
  exact Reachable.remove (addTopic (addTopic emptyCache 0 "t" "A").1 1 "t" "A").1
    _ 2 "t" "A" true
    (Reachable.add _ 1 "t" "A" (Reachable.add _ 0 "t" "A" Reachable.empty))
    (by decide)

/-- C2 (claim fails; code bug): the unguarded
`type_vec.erase(std::find(...))` calls in `removeTopic` are reachable
with `std::find` returning `end()`.  From the reachable state after
`addTopic(0,t,A)`, the call `removeTopic(0,t,B)` passes the global
topic-existence check but `B` is not in the global `TypeList`, so the
global-side erase is `erase(end())` (undefined behaviour, modelled as
`none`); from the reachable state after `addTopic(0,t,A); addTopic(1,t,B)`,
the call `removeTopic(0,t,B)` passes the local participant/topic-key
check but `B` is not in participant 0's local list, so the local-side
erase is `erase(end())`. -/
theorem removeTopic_unguarded_erase_ub :
    removeTopic (addTopic emptyCache 0 "t" "A").1 0 "t" "B" = none ∧
    Reachable (addTopic emptyCache 0 "t" "A").1 ∧
    removeTopic (addTopic (addTopic emptyCache 0 "t" "A").1 1 "t" "B").1
      0 "t" "B" = none ∧
    Reachable (addTopic (addTopic emptyCache 0 "t" "A").1 1 "t" "B").1 :=
  ⟨by decide, Reachable.add emptyCache 0 "t" "A" Reachable.empty, by decide,
    Reachable.add _ 1 "t" "B" (Reachable.add emptyCache 0 "t" "A" Reachable.empty)⟩

/-- C3: on every defined execution, `removeTopic` returns `true` exactly
when the topic name was a key of the global map (so the return value is
independent of the local side); `false` means nothing changed, `true`
means the global map changed. -/
theorem removeTopic_return_contract {c c2 : TopicCache} {p : GUID} {t ty : String}
    {b : Bool} (h : removeTopic c p t ty = some (c2, b)) :
    (b = true ↔ (lookupKey c.topic_to_types_ t).isSome = true) ∧
    (b = false → c2 = c) ∧
    (b = true → c2.topic_to_types_ ≠ c.topic_to_types_) := by
  rcases removeTopic_some_elim h with ⟨hg, rfl, rfl⟩ | ⟨vec, hg, hm, hb, hgl, hloc⟩
  · refine ⟨by simp [hg], fun _ => rfl, by simp⟩
  · subst hb
    refine ⟨by simp [hg], by intro h2; exact absurd h2 (by simp), fun _ heq => ?_⟩
    have heq2 := hgl.symm.trans heq
    by_cases hz : vec.erase ty = []
    · rw [if_pos hz] at heq2
      have hlen := length_eraseKey hg
      have hlen2 := congrArg List.length heq2
      omega
    · rw [if_neg hz] at heq2
      have h4 : lookupKey (setKey c.topic_to_types_ t (vec.erase ty)) t
          = lookupKey c.topic_to_types_ t := by rw [heq2]
      rw [lookupKey_setKey_self, hg] at h4
      injection h4 with h5
      have h6 : 0 < vec.length := List.length_pos.mpr (List.ne_nil_of_mem hm)
      have h7 := List.length_erase_of_mem hm
      rw [h5] at h7
      omega

/-- Witness for C3 at a concrete defined execution (successful global
removal). -/
theorem removeTopic_return_contract_witness :
    ((true = true) ↔
      (lookupKey (addTopic emptyCache 0 "t" "A").1.topic_to_types_ "t").isSome
        = true) ∧
    (true = false → emptyCache = (addTopic emptyCache 0 "t" "A").1) ∧
    (true = true → emptyCache.topic_to_types_
      ≠ (addTopic emptyCache 0 "t" "A").1.topic_to_types_) :=
  @removeTopic_return_contract (addTopic emptyCache 0 "t" "A").1 emptyCache
    0 "t" "A" true (by decide)

/-- C4: removing from a topic that is not a key of the global map
returns `false` and leaves the whole state unchanged. -/
theorem removeTopic_absent_topic_noop (c : TopicCache) (p : GUID) (t ty : String)
    (h : lookupKey c.topic_to_types_ t = none) :
    removeTopic c p t ty = some (c, false) := by
  unfold removeTopic
  rw [h]

/-- Witness for C4: removing from the empty index. -/
theorem removeTopic_absent_topic_noop_witness :
    removeTopic emptyCache 0 "t" "A" = some (emptyCache, false) :=
  removeTopic_absent_topic_noop emptyCache 0 "t" "A" (by decide)

/-- C5 counterexample: starting from the state with global `TypeList`
`["B","A"]` for topic `t` (reached by `addTopic(0,t,B); addTopic(0,t,A)`),
executing `addTopic(0,t,B)` then `removeTopic(0,t,B)` erases the *first*
`B`, not the appended one, ending with `["A","B"]`: the exact pre-add
state is not restored. -/
theorem addRemove_roundtrip_counterexample :
    removeTopic
        (addTopic (addTopic (addTopic emptyCache 0 "t" "B").1 0 "t" "A").1
          0 "t" "B").1
        0 "t" "B"
      = some (⟨[("t", ["A", "B"])], [(0, [("t", ["A", "B"])])]⟩, true) ∧
    (⟨[("t", ["A", "B"])], [(0, [("t", ["A", "B"])])]⟩ : TopicCache)
      ≠ (addTopic (addTopic emptyCache 0 "t" "B").1 0 "t" "A").1 :=
  ⟨by decide, by decide⟩

/-- C5 (amended): `addTopic(p,t,ty)` followed by `removeTopic(p,t,ty)`
restores the exact pre-add state of both maps (with no residual empty
entries) whenever the state has no empty collections (true of every
reachable state) and `ty` does not already occur in the global
`TypeList` for `t` nor in `p`'s local one.  When `ty` already occurs,
only the per-topic multisets are restored, not the exact lists (the
remove erases the first occurrence, see the counterexample). -/
theorem addRemove_roundtrip (c : TopicCache) (p : GUID) (t ty : String)
    (hne : NoEmptyVals c) (hg : ty ∉ globalTypes c t)
    (hl : ty ∉ localTypes c p t) :
    removeTopic (addTopic c p t ty).1 p t ty = some (c, true) := by
  have hfe : ∀ (l : TypeList), ty ∉ l → findErase (l ++ [ty]) ty = some l := by
    intro l hl2
    unfold findErase
    rw [if_pos (by simp), List.erase_append_right _ hl2]
    simp
  have hg1 : lookupKey (appendType c.topic_to_types_ t ty) t
      = some (globalTypes c t ++ [ty]) := by
    rw [lookupKey_appendType_self]
    rfl
  have hp1 : lookupKey
      (setKey c.participant_to_topics_ p
        (appendType ((lookupKey c.participant_to_topics_ p).getD []) t ty)) p
      = some (appendType ((lookupKey c.participant_to_topics_ p).getD []) t ty) :=
    lookupKey_setKey_self _ _ _
  have hin1 : lookupKey
      (appendType ((lookupKey c.participant_to_topics_ p).getD []) t ty) t
      = some (localTypes c p t ++ [ty]) := by
    rw [lookupKey_appendType_self]
    rfl
  have hGfinal : (if globalTypes c t = [] then
        eraseKey (appendType c.topic_to_types_ t ty) t
      else setKey (appendType c.topic_to_types_ t ty) t (globalTypes c t))
      = c.topic_to_types_ := by
    by_cases hzg : globalTypes c t = []
    · rw [if_pos hzg]
      have hnone : lookupKey c.topic_to_types_ t = none := by
        cases hq : lookupKey c.topic_to_types_ t with
        | none => rfl
        | some v =>
          exfalso
          unfold globalTypes at hzg
          rw [hq] at hzg
          simp only [Option.getD_some] at hzg
          exact hne.1 (t, v) (lookupKey_mem hq) hzg
      unfold appendType
      rw [hnone]
      exact eraseKey_append_of_absent _ hnone
    · rw [if_neg hzg]
      have hsome : lookupKey c.topic_to_types_ t = some (globalTypes c t) := by
        unfold globalTypes
        cases hq : lookupKey c.topic_to_types_ t with
        | none =>
          unfold globalTypes at hzg
          rw [hq] at hzg
          simp at hzg
        | some v => simp
      unfold appendType
      rw [hsome, setKey_setKey]
      exact setKey_self_of_lookup hsome
  have hPfinal : (if (if localTypes c p t = [] then
          eraseKey
            (appendType ((lookupKey c.participant_to_topics_ p).getD []) t ty) t
        else setKey
            (appendType ((lookupKey c.participant_to_topics_ p).getD []) t ty) t
            (localTypes c p t)) = []
      then eraseKey
        (setKey c.participant_to_topics_ p
          (appendType ((lookupKey c.participant_to_topics_ p).getD []) t ty)) p
      else setKey
        (setKey c.participant_to_topics_ p
          (appendType ((lookupKey c.participant_to_topics_ p).getD []) t ty)) p
        (if localTypes c p t = [] then
          eraseKey
            (appendType ((lookupKey c.participant_to_topics_ p).getD []) t ty) t
        else setKey
            (appendType ((lookupKey c.participant_to_topics_ p).getD []) t ty) t
            (localTypes c p t)))
      = c.participant_to_topics_ := by
    by_cases hzl : localTypes c p t = []
    · have hq2 : lookupKey ((lookupKey c.participant_to_topics_ p).getD []) t
          = none := by
        cases hq : lookupKey ((lookupKey c.participant_to_topics_ p).getD []) t with
        | none => rfl
        | some lv =>
          exfalso
          unfold localTypes at hzl
          rw [hq] at hzl
          simp only [Option.getD_some] at hzl
          cases hq3 : lookupKey c.participant_to_topics_ p with
          | none =>
            rw [hq3] at hq
            simp [lookupKey] at hq
          | some inner =>
            rw [hq3] at hq
            simp only [Option.getD_some] at hq
            exact (hne.2 (p, inner) (lookupKey_mem hq3)).2 (t, lv)
              (lookupKey_mem hq) hzl
      have hApp : appendType ((lookupKey c.participant_to_topics_ p).getD []) t ty
          = ((lookupKey c.participant_to_topics_ p).getD []) ++ [(t, [ty])] := by
        unfold appendType
        rw [hq2]
      have hInner1 : eraseKey
          (appendType ((lookupKey c.participant_to_topics_ p).getD []) t ty) t
          = (lookupKey c.participant_to_topics_ p).getD [] := by
        rw [hApp]
        exact eraseKey_append_of_absent _ hq2
      rw [if_pos hzl, hInner1]
      by_cases hio : (lookupKey c.participant_to_topics_ p).getD [] = []
      · have hpq : lookupKey c.participant_to_topics_ p = none := by
          cases hq3 : lookupKey c.participant_to_topics_ p with
          | none => rfl
          | some inner =>
            exfalso
            rw [hq3] at hio
            simp only [Option.getD_some] at hio
            exact (hne.2 (p, inner) (lookupKey_mem hq3)).1 hio
        rw [if_pos hio, setKey_of_absent _ hpq]
        exact eraseKey_append_of_absent _ hpq
      · have hpq : lookupKey c.participant_to_topics_ p
            = some ((lookupKey c.participant_to_topics_ p).getD []) := by
          cases hq3 : lookupKey c.participant_to_topics_ p with
          | none =>
            rw [hq3] at hio
            simp at hio
          | some inner => simp
        rw [if_neg hio, setKey_setKey]
        exact setKey_self_of_lookup hpq
    · have hq2 : lookupKey ((lookupKey c.participant_to_topics_ p).getD []) t
          = some (localTypes c p t) := by
        unfold localTypes
        cases hq : lookupKey ((lookupKey c.participant_to_topics_ p).getD []) t with
        | none =>
          unfold localTypes at hzl
          rw [hq] at hzl
          simp at hzl
        | some lv => simp
      have hApp : appendType ((lookupKey c.participant_to_topics_ p).getD []) t ty
          = setKey ((lookupKey c.participant_to_topics_ p).getD []) t
              (localTypes c p t ++ [ty]) := by
        unfold appendType
        rw [hq2]
      have hInner1 : setKey
          (appendType ((lookupKey c.participant_to_topics_ p).getD []) t ty) t
          (localTypes c p t)
          = (lookupKey c.participant_to_topics_ p).getD [] := by
        rw [hApp, setKey_setKey]
        exact setKey_self_of_lookup hq2
      rw [if_neg hzl, hInner1]
      have hio : (lookupKey c.participant_to_topics_ p).getD [] ≠ [] := by
        intro hi0
        rw [hi0] at hq2
        simp [lookupKey] at hq2
      have hpq : lookupKey c.participant_to_topics_ p
          = some ((lookupKey c.participant_to_topics_ p).getD []) := by
        cases hq3 : lookupKey c.participant_to_topics_ p with
        | none =>
          rw [hq3] at hio
          simp at hio
        | some inner => simp
      rw [if_neg hio, setKey_setKey]
      exact setKey_self_of_lookup hpq
  simp only [removeTopic, addTopic_global, addTopic_local, hg1, hfe _ hg, hp1,
    hin1, hfe _ hl]
  rw [hGfinal, hPfinal]

/-- Witness for C5's amended theorem at a concrete state: pre-state with
one registration of a different type on another topic. -/
theorem addRemove_roundtrip_witness :
    NoEmptyVals (addTopic emptyCache 0 "u" "X").1 ∧
    "A" ∉ globalTypes (addTopic emptyCache 0 "u" "X").1 "t" ∧
    "A" ∉ localTypes (addTopic emptyCache 0 "u" "X").1 1 "t" ∧
    removeTopic (addTopic (addTopic emptyCache 0 "u" "X").1 1 "t" "A").1 1 "t" "A"
      = some ((addTopic emptyCache 0 "u" "X").1, true) :=
  ⟨by decide, by decide, by decide,
    addRemove_roundtrip (addTopic emptyCache 0 "u" "X").1 1 "t" "A"
      (by decide) (by decide) (by decide)⟩

/-- C6: `countParticipants` returns the sum, over exactly the candidate
names present as keys of the global map, of the lengths of their
`TypeList`s (absent names contribute zero, and each registration record
in a list is counted once), for every state and every ordered candidate
sequence. -/
theorem countParticipants_correct (c : TopicCache) (fqdns : List String) :
    (countParticipants c fqdns).2 = specCandidateSum c fqdns := by
  unfold countParticipants specCandidateSum
  suffices h : ∀ n, (countLoop c fqdns n).2
      = n + (fqdns.map (fun t => (globalTypes c t).length)).sum from by
    have h0 := h 0
    simpa using h0
  induction fqdns with
  | nil =>
    intro n
    simp [countLoop]
  | cons f rest ih =>
    intro n
    unfold countLoop
    cases hq : lookupKey c.topic_to_types_ f with
    | none =>
      have h2 := ih n
      have h3 : (globalTypes c f).length = 0 := by
        unfold globalTypes
        rw [hq]
        rfl
      simp only [List.map_cons, List.sum_cons, h3]
      omega
    | some vec =>
      have h2 := ih (n + vec.length)
      have h3 : (globalTypes c f).length = vec.length := by
        unfold globalTypes
        rw [hq]
        rfl
      simp only [List.map_cons, List.sum_cons, h3]
      omega

/-- C7: in every reachable state there are no empty collections at any
level (every global topic key maps to a non-empty `TypeList`, every
participant key to a non-empty map of non-empty `TypeList`s), and a
topic name is a key of the global map iff its global `TypeList` (the
registration records for that topic) is non-empty. -/
theorem no_empty_collections (c : TopicCache) (h : Reachable c) :
    NoEmptyVals c ∧
    (∀ t, (lookupKey c.topic_to_types_ t).isSome = true ↔ globalTypes c t ≠ []) := by
  have hne := (reachable_WF h).2
  refine ⟨hne, fun t => ?_⟩
  constructor
  · intro hs
    cases hq : lookupKey c.topic_to_types_ t with
    | none =>
      rw [hq] at hs
      simp at hs
    | some v =>
      have hv := hne.1 (t, v) (lookupKey_mem hq)
      unfold globalTypes
      rw [hq]
      simpa using hv
  · intro hnz
    cases hq : lookupKey c.topic_to_types_ t with
    | none =>
      exfalso
      apply hnz
      unfold globalTypes
      rw [hq]
      rfl
    | some v => rfl

/-- Witness for C7 at a concrete reachable state. -/
theorem no_empty_collections_witness :
    NoEmptyVals (addTopic emptyCache 0 "t" "A").1 ∧
    ((lookupKey (addTopic emptyCache 0 "t" "A").1.topic_to_types_ "t").isSome
        = true
      ↔ globalTypes (addTopic emptyCache 0 "t" "A").1 "t" ≠ []) :=
  ⟨(no_empty_collections _ (Reachable.add emptyCache 0 "t" "A" Reachable.empty)).1,
   (no_empty_collections _
     (Reachable.add emptyCache 0 "t" "A" Reachable.empty)).2 "t"⟩

/-- C8: for every state and input, `addTopic` returns `true`, appends
`ty` at the end of the global `TypeList` for `t` (creating the key if
absent) and at the end of `p`'s local `TypeList` for `t` (creating the
participant and/or topic key if absent), and changes no other topic, no
other participant, and no other topic of `p`. -/
theorem addTopic_effect (c : TopicCache) (p : GUID) (t ty : String) :
    (addTopic c p t ty).2 = true ∧
    lookupKey (addTopic c p t ty).1.topic_to_types_ t
      = some (globalTypes c t ++ [ty]) ∧
    (∀ t2, t2 ≠ t → lookupKey (addTopic c p t ty).1.topic_to_types_ t2
      = lookupKey c.topic_to_types_ t2) ∧
    lookupKey ((lookupKey (addTopic c p t ty).1.participant_to_topics_ p).getD [])
        t
      = some (localTypes c p t ++ [ty]) ∧
    (∀ p2, p2 ≠ p → lookupKey (addTopic c p t ty).1.participant_to_topics_ p2
      = lookupKey c.participant_to_topics_ p2) ∧
    (∀ t2, t2 ≠ t →
      lookupKey
          ((lookupKey (addTopic c p t ty).1.participant_to_topics_ p).getD []) t2
        = lookupKey ((lookupKey c.participant_to_topics_ p).getD []) t2) := by
  refine ⟨addTopic_true c p t ty, ?_, ?_, ?_, ?_, ?_⟩
  · rw [addTopic_global, lookupKey_appendType_self]
    rfl
  · intro t2 h2
    rw [addTopic_global, lookupKey_appendType_ne _ _ h2]
  · rw [addTopic_local, lookupKey_setKey_self]
    simp only [Option.getD_some]
    rw [lookupKey_appendType_self]
    rfl
  · intro p2 h2
    rw [addTopic_local, lookupKey_setKey_ne _ h2]
  · intro t2 h2
    rw [addTopic_local, lookupKey_setKey_self]
    simp only [Option.getD_some]
    rw [lookupKey_appendType_ne _ _ h2]

/-- Witness for C8 at concrete inputs (including one frame instance). -/
theorem addTopic_effect_witness :
    (addTopic emptyCache 0 "t" "A").2 = true ∧
    lookupKey (addTopic emptyCache 0 "t" "A").1.topic_to_types_ "u"
      = lookupKey emptyCache.topic_to_types_ "u" :=
  ⟨(addTopic_effect emptyCache 0 "t" "A").1,
   (addTopic_effect emptyCache 0 "t" "A").2.2.1 "u" (by decide)⟩

/-- C10: the read operations do not mutate the index: `countParticipants`
returns the state it was given (its loop only uses `find`, inserting
nothing for absent keys), `cloneTopicToTypes` returns a copy of the
global map, and `cloneParticipantTopics` writes to its output parameter
only when it returns `found` (and then returns a copy of the
participant's map). -/
theorem read_operations_pure (c : TopicCache) (fqdns : List String) (g : GUID)
    (out : NameToNamesMap) :
    (countParticipants c fqdns).1 = c ∧
    cloneTopicToTypes c = c.topic_to_types_ ∧
    ((cloneParticipantTopics c g out).1 = false →
      (cloneParticipantTopics c g out).2 = out) ∧
    ((cloneParticipantTopics c g out).1 = true →
      lookupKey c.participant_to_topics_ g
        = some (cloneParticipantTopics c g out).2) := by
  refine ⟨?_, rfl, ?_, ?_⟩
  · unfold countParticipants
    suffices h : ∀ n, (countLoop c fqdns n).1 = c from h 0
    induction fqdns with
    | nil =>
      intro n
      rfl
    | cons f rest ih =>
      intro n
      unfold countLoop
      cases hq : lookupKey c.topic_to_types_ f with
      | none => exact ih n
      | some vec => exact ih (n + vec.length)
  · unfold cloneParticipantTopics
    cases hq : lookupKey c.participant_to_topics_ g with
    | none => intro _; rfl
    | some inner =>
      intro hfalse
      simp at hfalse
  · unfold cloneParticipantTopics
    cases hq : lookupKey c.participant_to_topics_ g with
    | none =>
      intro htrue
      simp at htrue
    | some inner =>
      intro _
      rfl

/-- Witness for C10 at concrete inputs (absent participant: output
parameter untouched). -/
theorem read_operations_pure_witness :
    (countParticipants emptyCache ["t"]).1 = emptyCache ∧
    (cloneParticipantTopics emptyCache 0 [("x", ["y"])]).2 = [("x", ["y"])] :=
  ⟨(read_operations_pure emptyCache ["t"] 0 [("x", ["y"])]).1,
   (read_operations_pure emptyCache ["t"] 0 [("x", ["y"])]).2.2.1 (by decide)⟩
